import Mathlib

/-! # badcfg: merged view over a TOML config and a KeePass database

A shallow embedding of `badcfglib/config.go` and `cmd/badcfg/badcfg.go`.

* A Go `string` is a finite sequence of bytes; `len`, slicing, `==`, `<` and
  `strings.Contains` all work on bytes.  It is modelled as a list of byte values.
* A Go `map[string]string` is a finite map with unique keys whose enumeration
  order is unspecified.  It is modelled as an association list with unique keys;
  the order of the list stands for the order in which one particular `range`
  happens to enumerate the map.
* A Go range-over-func iterator is modelled as a fold over a consumer state in
  which `yield` returns the new state and the flag "keep going".
-/

namespace Badcfg

/-! ## Strings and maps -/

/-- A Go string: its sequence of bytes. -/
abbrev GoString := List Nat

/-- The Go string written as an ASCII literal: one byte per character. -/
def ascii (s : String) : GoString := s.data.map Char.toNat

/-- A Go `map[string]string`; `lookup k` is `v, ok := m[k]`, `insert k v` is
`m[k] = v` and `keys` is the order in which `range m` enumerates. -/
abbrev GoMap := AList (fun _ : GoString => GoString)

/-- The result of `sort.Strings`: the keys in increasing bytewise
lexicographic order. -/
def sortStrings (keys : List GoString) : List GoString :=
  keys.insertionSort (· ≤ ·)

/-- The test `strings.Contains(s, substr)`. -/
def stringsContains (s substr : GoString) : Bool :=
  decide (substr <:+: s)

/-! ## `badcfglib/config.go`: the merge view -/

def tomlConfigFileName : GoString := ascii "dev-config.toml"

def kdbxConfigFileName : GoString := ascii "dev-config.kdbx"

def kdbxPasswordFileName : GoString := ascii ".password-dev"

structure BadConfig where
  TomlConfig : GoMap
  KdbxConfig : GoMap

inductive ConfigFileEntryType where
  | TomlConfig
  | KdbxConfig
deriving DecidableEq, Repr

/-- The struct `ConfigFileEntry`; the field `Type` is spelled `Typ`. -/
structure ConfigFileEntry where
  Key : GoString
  Value : GoString
  Typ : ConfigFileEntryType
deriving DecidableEq, Repr

/-- The slice `keys` of `Values` just before the loop: the keys of `TomlConfig`
in enumeration order, then those of `KdbxConfig`, sorted by `sort.Strings`. -/
def BadConfig.sortedKeys (c : BadConfig) : List GoString :=
  sortStrings (c.TomlConfig.keys ++ c.KdbxConfig.keys)

/-- The loop `for _, k := range keys` of `Values`, run from consumer state `s`.
`yield e s` is the consumer's step: its new state and whether to go on. -/
def BadConfig.rangeKeys {σ : Type} (c : BadConfig)
    (yield : ConfigFileEntry → σ → σ × Bool) : List GoString → σ → σ
  | [], s => s
  | k :: ks, s =>
    match c.TomlConfig.lookup k with
    | some tomlValue =>
      let r := yield ⟨k, tomlValue, ConfigFileEntryType.TomlConfig⟩ s
      if r.2 = false then r.1 else c.rangeKeys yield ks r.1
    | none =>
      match c.KdbxConfig.lookup k with
      | some kdbxValue =>
        let r := yield ⟨k, kdbxValue, ConfigFileEntryType.KdbxConfig⟩ s
        if r.2 = false then r.1 else c.rangeKeys yield ks r.1
      | none => c.rangeKeys yield ks s

/-- The iterator `c.Values()` applied to a consumer `yield`. -/
def BadConfig.Values {σ : Type} (c : BadConfig)
    (yield : ConfigFileEntry → σ → σ × Bool) (s : σ) : σ :=
  c.rangeKeys yield c.sortedKeys s

/-- The sequence of entries `c.Values()` yields when consumed to the end:
the consumer records each entry and always asks for the next one. -/
def BadConfig.yielded (c : BadConfig) : List ConfigFileEntry :=
  c.Values (fun e acc => (acc ++ [e], true)) []

/-- The entry the loop body of `Values` yields for key `k`, if any. -/
def BadConfig.entryFor (c : BadConfig) (k : GoString) : Option ConfigFileEntry :=
  match c.TomlConfig.lookup k with
  | some tomlValue => some ⟨k, tomlValue, ConfigFileEntryType.TomlConfig⟩
  | none =>
    match c.KdbxConfig.lookup k with
    | some kdbxValue => some ⟨k, kdbxValue, ConfigFileEntryType.KdbxConfig⟩
    | none => none

/-- The number of entries of `l` whose Key is `k`. -/
def occurrences (k : GoString) (l : List ConfigFileEntry) : Nat :=
  l.countP (fun e => decide (e.Key = k))

/-- The map literal listing the given pairs, the first pair enumerated first
(later pairs with a repeated key are dropped). -/
def mapOf : List (GoString × GoString) → GoMap
  | [] => ∅
  | (k, v) :: rest => AList.insert k v (mapOf rest)

/-! ## `badcfglib/config.go`: reading the KeePass database -/

/-- An entry of the decoded database, as `readKdbxConfig` sees it after
`UnlockProtectedEntries`: what `GetTitle()` and `GetPassword()` return. -/
structure Entry where
  Title : GoString
  Password : GoString
deriving DecidableEq, Repr

/-- A group of the decoded database: its own entries and its sub-groups. -/
inductive Group where
  | mk (Entries : List Entry) (Groups : List Group) : Group

def Group.Entries : Group → List Entry
  | Group.mk entries _ => entries

def Group.Groups : Group → List Group
  | Group.mk _ groups => groups

/-- The value `db.Content.Root`: the top-level groups of the database. -/
structure RootData where
  Groups : List Group

/-- The two nested loops of `readKdbxConfig` over `db.Content.Root.Groups`,
started from the map `result`. -/
def flattenGroups (groups : List Group) (result : GoMap) : GoMap :=
  groups.foldl
    (fun result group =>
      group.Entries.foldl (fun result entry => result.insert entry.Title entry.Password) result)
    result

/-- The function `readKdbxConfig`.  `openErr` and `readErr` are the errors of
`os.Open(dbPath)` and `os.ReadFile(passwordPath)`, if any; `root` is
`db.Content.Root` once `Decode` (whose error is dropped) and
`UnlockProtectedEntries` have run. -/
def readKdbxConfig (openErr readErr : Option GoString) (root : RootData) :
    Except GoString GoMap :=
  match openErr with
  | some err => Except.error (ascii "error opening kdbx file: " ++ err)
  | none =>
    match readErr with
    | some err => Except.error (ascii "error reading password file: " ++ err)
    | none => Except.ok (flattenGroups root.Groups ∅)

/-- The entries `readKdbxConfig` visits, in the order it visits them: groups in
list order, entries in list order within each group. -/
def visitedEntries (root : RootData) : List Entry :=
  root.Groups.flatMap Group.Entries

mutual
/-- Every entry of the hierarchy below a group: its own entries and those of
its sub-groups at any depth. -/
def Group.allEntries : Group → List Entry
  | Group.mk entries groups => entries ++ allEntriesOfGroups groups
/-- Every entry of the hierarchy below a list of groups. -/
def allEntriesOfGroups : List Group → List Entry
  | [] => []
  | g :: gs => g.allEntries ++ allEntriesOfGroups gs
end

/-! ## `badcfglib/config.go`: locating the files -/

/-- The slice `pathsForSearch` for the home directory `homedir` that
`os.UserHomeDir()` returned. -/
def pathsForSearch (homedir : GoString) : List GoString :=
  [ascii "./" ++ tomlConfigFileName,
   ascii "./config/" ++ tomlConfigFileName,
   homedir ++ ascii "/IdeaProjects/JetProfile/config/" ++ tomlConfigFileName]

/-- The loop of `findDevConfigPath` over the candidate locations; `stat p`
tells whether `os.Stat(p)` returns no error. -/
def firstLocation (stat : GoString → Bool) : List GoString → Option GoString
  | [] => none
  | location :: rest => if stat location = true then some location else firstLocation stat rest

/-- The function `findDevConfigPath`, on a file system described by `stat`. -/
def findDevConfigPath (homedir : GoString) (stat : GoString → Bool) :
    Except GoString GoString :=
  match firstLocation stat (pathsForSearch homedir) with
  | some location => Except.ok location
  | none => Except.error (tomlConfigFileName ++ ascii " not found")

/-! ## `cmd/badcfg/badcfg.go` -/

/-- The slice expression `s[:hi]`; `none` is the run-time panic. -/
def sliceTo (s : GoString) (hi : Int) : Option GoString :=
  if 0 ≤ hi ∧ hi ≤ (s.length : Int) then some (s.take hi.toNat) else none

/-- The slice expression `s[lo:]`; `none` is the run-time panic. -/
def sliceFrom (s : GoString) (lo : Int) : Option GoString :=
  if 0 ≤ lo ∧ lo ≤ (s.length : Int) then some (s.drop lo.toNat) else none

/-- The call `strings.Repeat("*", count)`; `none` is the panic on a negative
count.  Byte 42 is the asterisk. -/
def repeatStar (count : Int) : Option GoString :=
  if count < 0 then none else some (List.replicate count.toNat 42)

/-- The function `truncateAndMask`; `none` is a run-time panic. -/
def truncateAndMask (s : GoString) (max : Int) : Option GoString := do
  let truncated ← if (s.length : Int) > max then sliceTo s max else some s
  if s.length < 4 then
    repeatStar (s.length : Int)
  else
    let first ← sliceTo truncated 2
    let middle ← repeatStar ((truncated.length : Int) - 4)
    let last ← sliceFrom truncated ((truncated.length : Int) - 2)
    some (first ++ middle ++ last)

/-- The function `truncate`; `none` is a run-time panic. -/
def truncate (s : GoString) (max : Int) (mask : Bool) : Option GoString :=
  if mask = true then truncateAndMask s max
  else if (s.length : Int) > max then (sliceTo s max).map (fun t => t ++ ascii "...")
  else some s

/-- How a run of `copy` ends, once the config has been read. -/
inductive CopyOutcome where
  /-- Error "no value found for key", exit status 1. -/
  | noValueFound
  /-- Error "more than one value found for key", the matches listed, exit status 1. -/
  | moreThanOneValueFound (result : List ConfigFileEntry)
  /-- Error "failed to initialize clipboard", exit status 1. -/
  | clipboardInitFailed
  /-- The value of `value` was written to the clipboard. -/
  | copied (value : ConfigFileEntry)
deriving DecidableEq, Repr

/-- The slice `result` of `copy` after its loop over `cfg.Values()`. -/
def copyMatches (cfg : BadConfig) (key : GoString) : List ConfigFileEntry :=
  cfg.Values
    (fun value result =>
      (if stringsContains value.Key key = true then result ++ [value] else result, true))
    []

/-- The function `copy` on the config `cfg` that `mustReadConfig` returned;
`clipboardInit` tells whether `clipboard.Init()` succeeds. -/
def copy (cfg : BadConfig) (clipboardInit : Bool) (key : GoString) : CopyOutcome :=
  let result := copyMatches cfg key
  if h : result.length = 0 then CopyOutcome.noValueFound
  else if result.length > 1 then CopyOutcome.moreThanOneValueFound result
  else if clipboardInit = false then CopyOutcome.clipboardInitFailed
  else CopyOutcome.copied (result.get ⟨0, Nat.pos_of_ne_zero h⟩)

/-- The bytes a run of `copy` wrote to the clipboard, if any. -/
def CopyOutcome.clipboard : CopyOutcome → Option GoString
  | CopyOutcome.copied value => some value.Value
  | _ => none

/-! ## Concrete inputs -/

/-- TomlConfig = {"a.b": "x"}, KdbxConfig = {"a.b": "y"}. -/
def cfgSharedKey : BadConfig :=
  ⟨mapOf [(ascii "a.b", ascii "x")], mapOf [(ascii "a.b", ascii "y")]⟩

/-- TomlConfig = {"a": "1", "b": "2"}, KdbxConfig = {"b": "s", "c": "t"}. -/
def cfgOverlap : BadConfig :=
  ⟨mapOf [(ascii "a", ascii "1"), (ascii "b", ascii "2")],
   mapOf [(ascii "b", ascii "s"), (ascii "c", ascii "t")]⟩

/-- TomlConfig = {"k.b": "2", "k.a": "1"}, KdbxConfig = {"pw": "s3cr3t"}. -/
def cfgDisjoint : BadConfig :=
  ⟨mapOf [(ascii "k.b", ascii "2"), (ascii "k.a", ascii "1")],
   mapOf [(ascii "pw", ascii "s3cr3t")]⟩

/-- The maps of `cfgDisjoint`, with the keys of TomlConfig enumerated in the
other order. -/
def cfgDisjointReordered : BadConfig :=
  ⟨mapOf [(ascii "k.a", ascii "1"), (ascii "k.b", ascii "2")],
   mapOf [(ascii "pw", ascii "s3cr3t")]⟩

/-- TomlConfig = {"a.b": "x"}, KdbxConfig empty. -/
def cfgSingle : BadConfig :=
  ⟨mapOf [(ascii "a.b", ascii "x")], mapOf []⟩

/-- A database whose only top-level group has no entry of its own and one
sub-group, holding the entry titled "t" with password "p". -/
def rootNested : RootData :=
  ⟨[Group.mk [] [Group.mk [⟨ascii "t", ascii "p"⟩] []]]⟩

/-- A database with two top-level groups, each holding an entry titled "dup". -/
def rootDup : RootData :=
  ⟨[Group.mk [⟨ascii "dup", ascii "first"⟩] [],
    Group.mk [⟨ascii "dup", ascii "second"⟩] []]⟩

/-- A secret of 51 bytes: 49 times "a", then "b", then "c". -/
def longSecret : GoString :=
  List.replicate 49 97 ++ [98, 99]

/-- A file system on which only `./config/dev-config.toml` exists. -/
def statOnlyConfigDir (p : GoString) : Bool :=
  decide (p = ascii "./config/dev-config.toml")

/-! ## Lemmas on the merge view -/

theorem rangeKeys_of_always_continue {σ : Type} (c : BadConfig)
    (yield : ConfigFileEntry → σ → σ × Bool) (hy : ∀ e s, (yield e s).2 = true) :
    ∀ (ks : List GoString) (s : σ),
      c.rangeKeys yield ks s = (ks.filterMap c.entryFor).foldl (fun s e => (yield e s).1) s := by
  intro ks
  induction ks with
  | nil => intro s; rfl
  | cons k ks ih =>
    intro s
    unfold BadConfig.rangeKeys
    cases ht : c.TomlConfig.lookup k with
    | some tv =>
      have he : c.entryFor k = some ⟨k, tv, ConfigFileEntryType.TomlConfig⟩ := by
        simp [BadConfig.entryFor, ht]
      simp [List.filterMap_cons, he, hy, ih]
    | none =>
      cases hk : c.KdbxConfig.lookup k with
      | some kv =>
        have he : c.entryFor k = some ⟨k, kv, ConfigFileEntryType.KdbxConfig⟩ := by
          simp [BadConfig.entryFor, ht, hk]
        simp [List.filterMap_cons, he, hy, ih]
      | none =>
        have he : c.entryFor k = none := by
          simp [BadConfig.entryFor, ht, hk]
        simp [List.filterMap_cons, he, ih]

theorem foldl_snoc_eq {α : Type} (l : List α) :
    ∀ acc : List α, l.foldl (fun acc e => acc ++ [e]) acc = acc ++ l := by
  induction l with
  | nil => intro acc; simp
  | cons a l ih => intro acc; simp [ih]

theorem yielded_eq_filterMap (c : BadConfig) :
    c.yielded = c.sortedKeys.filterMap c.entryFor := by
  unfold BadConfig.yielded BadConfig.Values
  rw [rangeKeys_of_always_continue c _ (fun _ _ => rfl)]
  simpa using foldl_snoc_eq (c.sortedKeys.filterMap c.entryFor) []

theorem entryFor_key {c : BadConfig} {k : GoString} {e : ConfigFileEntry}
    (h : c.entryFor k = some e) : e.Key = k := by
  unfold BadConfig.entryFor at h
  split at h
  · cases h; rfl
  · split at h
    · cases h; rfl
    · cases h

theorem lookup_eq_none_iff (m : GoMap) (k : GoString) :
    m.lookup k = none ↔ k ∉ m.keys := by
  rw [← AList.mem_keys, ← AList.lookup_isSome]
  cases m.lookup k <;> simp

theorem exists_lookup_of_mem_keys {m : GoMap} {k : GoString} (h : k ∈ m.keys) :
    ∃ v, m.lookup k = some v := by
  cases hl : m.lookup k with
  | none => exact absurd h ((lookup_eq_none_iff m k).1 hl)
  | some v => exact ⟨v, rfl⟩

theorem mem_keys_of_lookup {m : GoMap} {k v : GoString} (h : m.lookup k = some v) :
    k ∈ m.keys := by
  by_contra hn
  rw [(lookup_eq_none_iff m k).2 hn] at h
  cases h

theorem entryFor_of_mem_toml {c : BadConfig} {k : GoString} (h : k ∈ c.TomlConfig.keys) :
    ∃ v, c.TomlConfig.lookup k = some v ∧
      c.entryFor k = some ⟨k, v, ConfigFileEntryType.TomlConfig⟩ := by
  obtain ⟨v, hv⟩ := exists_lookup_of_mem_keys h
  exact ⟨v, hv, by simp [BadConfig.entryFor, hv]⟩

theorem entryFor_of_not_mem_toml {c : BadConfig} {k : GoString}
    (h : k ∉ c.TomlConfig.keys) (hk : k ∈ c.KdbxConfig.keys) :
    ∃ v, c.KdbxConfig.lookup k = some v ∧
      c.entryFor k = some ⟨k, v, ConfigFileEntryType.KdbxConfig⟩ := by
  obtain ⟨v, hv⟩ := exists_lookup_of_mem_keys hk
  exact ⟨v, hv, by simp [BadConfig.entryFor, (lookup_eq_none_iff _ _).2 h, hv]⟩

/-- Whatever algorithm `sort.Strings` runs, its result is a sorted rearrangement
of its argument, and there is only one: the list `sortStrings` computes. -/
theorem sortStrings_unique (keys sorted : List GoString)
    (hp : sorted.Perm keys) (hs : sorted.Sorted (· ≤ ·)) : sorted = sortStrings keys :=
  List.eq_of_perm_of_sorted (hp.trans (List.perm_insertionSort _ _).symm) hs
    (List.sorted_insertionSort _ _)

theorem sortedKeys_perm (c : BadConfig) :
    c.sortedKeys.Perm (c.TomlConfig.keys ++ c.KdbxConfig.keys) :=
  List.perm_insertionSort _ _

theorem sortedKeys_sorted (c : BadConfig) : c.sortedKeys.Sorted (· ≤ ·) :=
  List.sorted_insertionSort _ _

theorem mem_sortedKeys (c : BadConfig) (k : GoString) :
    k ∈ c.sortedKeys ↔ k ∈ c.TomlConfig.keys ∨ k ∈ c.KdbxConfig.keys := by
  rw [(sortedKeys_perm c).mem_iff, List.mem_append]

theorem entryFor_isSome_of_mem_sortedKeys {c : BadConfig} {k : GoString}
    (h : k ∈ c.sortedKeys) : ∃ e, c.entryFor k = some e ∧ e.Key = k := by
  by_cases ht : k ∈ c.TomlConfig.keys
  · obtain ⟨v, _, he⟩ := entryFor_of_mem_toml ht
    exact ⟨_, he, rfl⟩
  · have hk : k ∈ c.KdbxConfig.keys := by
      rcases (mem_sortedKeys c k).1 h with h | h
      · exact absurd h ht
      · exact h
    obtain ⟨v, _, he⟩ := entryFor_of_not_mem_toml ht hk
    exact ⟨_, he, rfl⟩

theorem filterMap_entryFor_map_key (c : BadConfig) :
    ∀ ks : List GoString, (∀ k ∈ ks, k ∈ c.sortedKeys) →
      (ks.filterMap c.entryFor).map ConfigFileEntry.Key = ks := by
  intro ks
  induction ks with
  | nil => intro _; rfl
  | cons k ks ih =>
    intro h
    obtain ⟨e, he, hk⟩ := entryFor_isSome_of_mem_sortedKeys (h k (List.mem_cons_self _ _))
    rw [List.filterMap_cons, he]
    simp only [List.map_cons, hk]
    rw [ih (fun k' hk' => h k' (List.mem_cons_of_mem _ hk'))]

theorem yielded_map_key (c : BadConfig) :
    c.yielded.map ConfigFileEntry.Key = c.sortedKeys := by
  rw [yielded_eq_filterMap]
  exact filterMap_entryFor_map_key c c.sortedKeys (fun _ h => h)

theorem mem_yielded_iff (c : BadConfig) (e : ConfigFileEntry) :
    e ∈ c.yielded ↔ e.Key ∈ c.sortedKeys ∧ c.entryFor e.Key = some e := by
  rw [yielded_eq_filterMap, List.mem_filterMap]
  constructor
  · rintro ⟨k, hk, he⟩
    have := entryFor_key he
    subst this
    exact ⟨hk, he⟩
  · rintro ⟨hk, he⟩
    exact ⟨e.Key, hk, he⟩


theorem countP_eq_of_nodup (k : GoString) :
    ∀ l : List GoString, l.Nodup →
      l.countP (fun x => decide (x = k)) = if k ∈ l then 1 else 0 := by
  intro l
  induction l with
  | nil => intro _; simp
  | cons a t ih =>
    intro h
    obtain ⟨hat, ht⟩ := List.nodup_cons.1 h
    rw [List.countP_cons, ih ht]
    by_cases hak : a = k
    · subst hak
      simp [hat]
    · have hka : ¬ k = a := fun h => hak h.symm
      simp [hak, hka]

theorem countP_sortedKeys (c : BadConfig) (k : GoString) :
    c.sortedKeys.countP (fun x => decide (x = k)) =
      (if k ∈ c.TomlConfig.keys then 1 else 0) + (if k ∈ c.KdbxConfig.keys then 1 else 0) := by
  rw [(sortedKeys_perm c).countP_eq, List.countP_append,
    countP_eq_of_nodup k _ c.TomlConfig.keys_nodup,
    countP_eq_of_nodup k _ c.KdbxConfig.keys_nodup]

theorem occurrences_yielded (c : BadConfig) (k : GoString) :
    occurrences k c.yielded =
      (if k ∈ c.TomlConfig.keys then 1 else 0) + (if k ∈ c.KdbxConfig.keys then 1 else 0) := by
  rw [← countP_sortedKeys, ← yielded_map_key, List.countP_map]
  rfl

theorem rangeKeys_congr {σ : Type} (c c' : BadConfig)
    (ht : ∀ k, c.TomlConfig.lookup k = c'.TomlConfig.lookup k)
    (hk : ∀ k, c.KdbxConfig.lookup k = c'.KdbxConfig.lookup k)
    (yield : ConfigFileEntry → σ → σ × Bool) :
    ∀ (ks : List GoString) (s : σ), c.rangeKeys yield ks s = c'.rangeKeys yield ks s := by
  intro ks
  induction ks with
  | nil => intro s; rfl
  | cons k ks ih =>
    intro s
    unfold BadConfig.rangeKeys
    rw [ht k, hk k]
    cases c'.TomlConfig.lookup k with
    | some tv => simp only [ih]
    | none =>
      cases c'.KdbxConfig.lookup k with
      | some kv => simp only [ih]
      | none => simp only [ih]

theorem sortedKeys_congr (c c' : BadConfig)
    (ht : c.TomlConfig.entries.Perm c'.TomlConfig.entries)
    (hk : c.KdbxConfig.entries.Perm c'.KdbxConfig.entries) :
    c.sortedKeys = c'.sortedKeys := by
  apply List.eq_of_perm_of_sorted _ (sortedKeys_sorted c) (sortedKeys_sorted c')
  refine (sortedKeys_perm c).trans (List.Perm.trans ?_ (sortedKeys_perm c').symm)
  exact List.Perm.append (ht.map _) (hk.map _)

theorem chain_of_sorted_of_countP (P : GoString → Prop) :
    ∀ l : List GoString, l.Sorted (· ≤ ·) →
      (∀ a, 2 ≤ l.countP (fun x => decide (x = a)) → P a) →
      List.Chain' (fun a b => a ≤ b ∧ (a = b → P a)) l := by
  intro l
  induction l with
  | nil => intro _ _; exact List.chain'_nil
  | cons a t ih =>
    intro hs h
    rw [List.chain'_cons']
    constructor
    · intro b hb
      cases t with
      | nil => simp at hb
      | cons x t' =>
        simp only [List.head?_cons, Option.mem_def, Option.some.injEq] at hb
        subst hb
        refine ⟨List.rel_of_sorted_cons hs x (List.mem_cons_self _ _), ?_⟩
        intro hab
        apply h
        subst hab
        simp [List.countP_cons]
    · apply ih hs.of_cons
      intro b hb
      apply h
      rw [List.countP_cons]
      omega

/-! ## Claims on `BadConfig.Values` -/

/-- C1: on TomlConfig = {"a.b": "x"}, KdbxConfig = {"a.b": "y"} the iterator
`Values`, consumed to the end, yields the entry {Key "a.b", Value "x", Type
TomlConfig} twice, not once: the shared key is appended to `keys` once from each
map and the loop runs its body for both copies.  No entry of type KdbxConfig is
yielded. -/
theorem Values_shared_key_yielded_twice :
    cfgSharedKey.yielded =
        [⟨ascii "a.b", ascii "x", ConfigFileEntryType.TomlConfig⟩,
         ⟨ascii "a.b", ascii "x", ConfigFileEntryType.TomlConfig⟩] ∧
      cfgSharedKey.TomlConfig.lookup (ascii "a.b") = some (ascii "x") ∧
      cfgSharedKey.KdbxConfig.lookup (ascii "a.b") = some (ascii "y") ∧
      occurrences (ascii "a.b") cfgSharedKey.yielded = 2 := by
  decide

/-- C2: on TomlConfig = {"a": "1", "b": "2"}, KdbxConfig = {"b": "s", "c": "t"}
the keys of the yielded entries are "a", "b", "b", "c": they are not strictly
ascending and "b" occurs twice. -/
theorem Values_keys_not_strictly_ascending :
    cfgOverlap.yielded.map ConfigFileEntry.Key = [ascii "a", ascii "b", ascii "b", ascii "c"] ∧
      ¬ (cfgOverlap.yielded.map ConfigFileEntry.Key).Sorted (· < ·) ∧
      ¬ (cfgOverlap.yielded.map ConfigFileEntry.Key).Nodup := by
  decide

/-- C3: a key occurs among the entries yielded by `Values` (consumed to the
end) exactly when it is a key of TomlConfig or of KdbxConfig; a yielded entry
whose key is in TomlConfig has type TomlConfig and the value TomlConfig holds
for the key, and any other yielded entry has type KdbxConfig and the value
KdbxConfig holds for the key. -/
theorem Values_keys_and_provenance (c : BadConfig) :
    (∀ k, k ∈ c.yielded.map ConfigFileEntry.Key ↔
        k ∈ c.TomlConfig.keys ∨ k ∈ c.KdbxConfig.keys) ∧
      (∀ e, e ∈ c.yielded →
        (e.Key ∈ c.TomlConfig.keys →
          e.Typ = ConfigFileEntryType.TomlConfig ∧
            c.TomlConfig.lookup e.Key = some e.Value) ∧
        (e.Key ∉ c.TomlConfig.keys →
          e.Typ = ConfigFileEntryType.KdbxConfig ∧
            c.KdbxConfig.lookup e.Key = some e.Value)) := by
  constructor
  · intro k
    rw [yielded_map_key, mem_sortedKeys]
  · intro e he
    obtain ⟨hk, hent⟩ := (mem_yielded_iff c e).1 he
    obtain ⟨ek, ev, et⟩ := e
    dsimp only at hk hent ⊢
    constructor
    · intro ht
      obtain ⟨v, hv, hev⟩ := entryFor_of_mem_toml ht
      rw [hent] at hev
      cases hev
      exact ⟨rfl, hv⟩
    · intro ht
      have hkd : ek ∈ c.KdbxConfig.keys := by
        rcases (mem_sortedKeys c ek).1 hk with h | h
        · exact absurd h ht
        · exact h
      obtain ⟨v, hv, hev⟩ := entryFor_of_not_mem_toml ht hkd
      rw [hent] at hev
      cases hev
      exact ⟨rfl, hv⟩

/-- Witness of C3 on TomlConfig = {"k.b": "2", "k.a": "1"}, KdbxConfig =
{"pw": "s3cr3t"}: the yielded entry for "pw" has type KdbxConfig. -/
theorem Values_keys_and_provenance_witness :
    (⟨ascii "pw", ascii "s3cr3t", ConfigFileEntryType.KdbxConfig⟩ : ConfigFileEntry) ∈
        cfgDisjoint.yielded ∧
      ascii "pw" ∉ cfgDisjoint.TomlConfig.keys ∧
      cfgDisjoint.KdbxConfig.lookup (ascii "pw") = some (ascii "s3cr3t") :=
  ⟨by decide, by decide,
    (((Values_keys_and_provenance cfgDisjoint).2
      ⟨ascii "pw", ascii "s3cr3t", ConfigFileEntryType.KdbxConfig⟩ (by decide)).2
      (by decide)).2⟩

/-- C9: the outcome of `Values` depends only on the contents of the two maps,
not on the order in which either map is enumerated: two configs whose maps hold
the same pairs, enumerated in any two orders, drive every consumer to the same
final state, and consumed to the end they yield the same sequence. -/
theorem Values_independent_of_enumeration (c c' : BadConfig)
    (ht : c.TomlConfig.entries.Perm c'.TomlConfig.entries)
    (hk : c.KdbxConfig.entries.Perm c'.KdbxConfig.entries) :
    c.yielded = c'.yielded ∧
      ∀ (σ : Type) (yield : ConfigFileEntry → σ → σ × Bool) (s : σ),
        c.Values yield s = c'.Values yield s := by
  have key : ∀ (σ : Type) (yield : ConfigFileEntry → σ → σ × Bool) (s : σ),
      c.Values yield s = c'.Values yield s := by
    intro σ yield s
    unfold BadConfig.Values
    rw [sortedKeys_congr c c' ht hk]
    exact rangeKeys_congr c c' (fun _ => AList.perm_lookup ht) (fun _ => AList.perm_lookup hk)
      yield _ s
  exact ⟨key _ _ _, key⟩

/-- Witness of C9: TomlConfig = {"k.b": "2", "k.a": "1"} enumerated in both
orders. -/
theorem Values_independent_of_enumeration_witness :
    cfgDisjoint.TomlConfig.keys ≠ cfgDisjointReordered.TomlConfig.keys ∧
      cfgDisjoint.yielded = cfgDisjointReordered.yielded :=
  ⟨by decide,
    (Values_independent_of_enumeration cfgDisjoint cfgDisjointReordered
      (by decide) (by decide)).1⟩

/-- C10: the keys of consecutive entries yielded by `Values` never decrease,
and two consecutive entries have equal keys only when that key is in both
TomlConfig and KdbxConfig; when the two maps have no key in common the keys of
the output are strictly ascending and each key of the union is the key of
exactly one yielded entry. -/
theorem Values_keys_nondecreasing (c : BadConfig) :
    List.Chain'
        (fun a b : ConfigFileEntry =>
          a.Key ≤ b.Key ∧
            (a.Key = b.Key → a.Key ∈ c.TomlConfig.keys ∧ a.Key ∈ c.KdbxConfig.keys))
        c.yielded ∧
      ((∀ k, k ∈ c.TomlConfig.keys → k ∉ c.KdbxConfig.keys) →
        (c.yielded.map ConfigFileEntry.Key).Sorted (· < ·) ∧
          ∀ k, k ∈ c.TomlConfig.keys ∨ k ∈ c.KdbxConfig.keys →
            occurrences k c.yielded = 1) := by
  constructor
  · have h := chain_of_sorted_of_countP
      (fun a => a ∈ c.TomlConfig.keys ∧ a ∈ c.KdbxConfig.keys) c.sortedKeys
      (sortedKeys_sorted c)
      (by
        intro a ha
        rw [countP_sortedKeys] at ha
        by_cases h1 : a ∈ c.TomlConfig.keys <;> by_cases h2 : a ∈ c.KdbxConfig.keys <;>
          simp [h1, h2] at ha ⊢)
    rw [← yielded_map_key, List.chain'_map] at h
    exact h
  · intro hd
    have hnd : c.sortedKeys.Nodup := by
      rw [(sortedKeys_perm c).nodup_iff]
      exact List.Nodup.append c.TomlConfig.keys_nodup c.KdbxConfig.keys_nodup
        (fun k h1 h2 => hd k h1 h2)
    rw [yielded_map_key]
    refine ⟨(sortedKeys_sorted c).lt_of_le hnd, ?_⟩
    intro k hk
    rw [occurrences_yielded]
    by_cases h1 : k ∈ c.TomlConfig.keys
    · simp [h1, hd k h1]
    · rcases hk with hk | hk
      · exact absurd hk h1
      · simp [h1, hk]

/-- Witness of C10 on TomlConfig = {"k.b": "2", "k.a": "1"}, KdbxConfig =
{"pw": "s3cr3t"}, which share no key. -/
theorem Values_keys_nondecreasing_witness :
    (∀ k, k ∈ cfgDisjoint.TomlConfig.keys → k ∉ cfgDisjoint.KdbxConfig.keys) ∧
      (cfgDisjoint.yielded.map ConfigFileEntry.Key).Sorted (· < ·) :=
  ⟨by decide, ((Values_keys_nondecreasing cfgDisjoint).2 (by decide)).1⟩


/-! ## Lemmas on `readKdbxConfig` -/

theorem flattenGroups_eq_foldl (groups : List Group) :
    ∀ result : GoMap,
      flattenGroups groups result =
        (groups.flatMap Group.Entries).foldl
          (fun result entry => result.insert entry.Title entry.Password) result := by
  induction groups with
  | nil => intro result; rfl
  | cons g gs ih =>
    intro result
    have h := ih (g.Entries.foldl (fun result entry => result.insert entry.Title entry.Password)
      result)
    simp only [flattenGroups, List.foldl_cons, List.flatMap_cons, List.foldl_append] at h ⊢
    exact h

theorem lookup_foldl_insert_of_not_mem (t : GoString) :
    ∀ (l : List Entry) (m : GoMap), (∀ x ∈ l, x.Title ≠ t) →
      (l.foldl (fun result entry => result.insert entry.Title entry.Password) m).lookup t =
        m.lookup t := by
  intro l
  induction l with
  | nil => intro m _; rfl
  | cons x l ih =>
    intro m h
    rw [List.foldl_cons, ih _ (fun y hy => h y (List.mem_cons_of_mem _ hy))]
    exact AList.lookup_insert_ne (fun heq => h x (List.mem_cons_self _ _) heq.symm)

theorem lookup_foldl_insert_last (pre post : List Entry) (e : Entry) (m : GoMap)
    (hlast : ∀ x ∈ post, x.Title ≠ e.Title) :
    ((pre ++ e :: post).foldl (fun result entry => result.insert entry.Title entry.Password)
      m).lookup e.Title = some e.Password := by
  rw [List.foldl_append, List.foldl_cons, lookup_foldl_insert_of_not_mem e.Title post _ hlast]
  exact AList.lookup_insert _

theorem exists_last_with_title (t : GoString) :
    ∀ l : List Entry, (∃ e ∈ l, e.Title = t) →
      ∃ pre e post, l = pre ++ e :: post ∧ e.Title = t ∧ ∀ x ∈ post, x.Title ≠ t := by
  intro l
  induction l with
  | nil => rintro ⟨e, he, _⟩; cases he
  | cons a l ih =>
    intro h
    by_cases hl : ∃ e ∈ l, e.Title = t
    · obtain ⟨pre, e, post, hpp, het, hpost⟩ := ih hl
      exact ⟨a :: pre, e, post, by rw [hpp]; rfl, het, hpost⟩
    · obtain ⟨e, he, het⟩ := h
      rcases List.mem_cons.1 he with hea | hel
      · subst hea
        exact ⟨[], e, l, rfl, het, fun x hx hxt => hl ⟨x, hx, hxt⟩⟩
      · exact absurd ⟨e, hel, het⟩ hl

theorem lookup_foldl_insert_source (k v : GoString) :
    ∀ (l : List Entry) (m : GoMap),
      (l.foldl (fun result entry => result.insert entry.Title entry.Password) m).lookup k =
          some v →
        m.lookup k = some v ∨ ∃ e, e ∈ l ∧ e.Title = k ∧ e.Password = v := by
  intro l
  induction l with
  | nil => intro m h; exact Or.inl h
  | cons x l ih =>
    intro m h
    rw [List.foldl_cons] at h
    rcases ih _ h with hm | ⟨e, he, het, hep⟩
    · by_cases hk : k = x.Title
      · subst hk
        rw [AList.lookup_insert] at hm
        exact Or.inr ⟨x, List.mem_cons_self _ _, rfl, Option.some.inj hm⟩
      · rw [AList.lookup_insert_ne hk] at hm
        exact Or.inl hm
    · exact Or.inr ⟨e, List.mem_cons_of_mem _ he, het, hep⟩

theorem countP_keys_eq_one {m : GoMap} {k v : GoString} (h : m.lookup k = some v) :
    m.keys.countP (fun x => decide (x = k)) = 1 := by
  rw [countP_eq_of_nodup k _ m.keys_nodup, if_pos (mem_keys_of_lookup h)]

theorem mem_visitedEntries {root : RootData} {g : Group} {e : Entry}
    (hg : g ∈ root.Groups) (he : e ∈ g.Entries) : e ∈ visitedEntries root :=
  List.mem_flatMap.2 ⟨g, hg, he⟩

/-! ## Claims on `readKdbxConfig` -/

/-- C4 fails on the database whose only top-level group holds no entry of its
own and one sub-group with the entry titled "t": the entry belongs to the
hierarchy, yet the map `readKdbxConfig` builds has no key "t" (it is empty),
because the loops visit the top-level groups and their own entries only. -/
theorem readKdbxConfig_skips_nested_groups :
    (⟨ascii "t", ascii "p"⟩ : Entry) ∈ allEntriesOfGroups rootNested.Groups ∧
      ∃ m, readKdbxConfig none none rootNested = Except.ok m ∧
        m.lookup (ascii "t") = none ∧ ascii "t" ∉ m.keys ∧ m.keys = [] :=
  ⟨by decide, flattenGroups rootNested.Groups ∅, rfl, by decide, by decide, by decide⟩

/-- C4, amended: when both files can be read, `readKdbxConfig` returns a map
that contains, for every entry held directly by a top-level group of the
database (a member of `db.Content.Root.Groups`), a key equal to that entry's
title, whose value is the password of a visited entry carrying that title; and
the map holds nothing else: every key of the map is the title, and its value
the password, of an entry held directly by a top-level group, so the entries of
groups nested below the top-level groups are not visited. -/
theorem readKdbxConfig_top_level_entries (root : RootData) :
    ∃ m, readKdbxConfig none none root = Except.ok m ∧
      (∀ g, g ∈ root.Groups → ∀ e, e ∈ g.Entries →
        e.Title ∈ m.keys ∧
          ∃ e', e' ∈ visitedEntries root ∧ e'.Title = e.Title ∧
            m.lookup e.Title = some e'.Password) ∧
      (∀ k, k ∈ m.keys →
        ∃ g, g ∈ root.Groups ∧ ∃ e, e ∈ g.Entries ∧ e.Title = k ∧
          m.lookup k = some e.Password) := by
  refine ⟨flattenGroups root.Groups ∅, rfl, ?_, ?_⟩
  · intro g hg e he
    obtain ⟨pre, e', post, hpp, het, hpost⟩ :=
      exists_last_with_title e.Title (visitedEntries root) ⟨e, mem_visitedEntries hg he, rfl⟩
    have hl : (flattenGroups root.Groups ∅).lookup e.Title = some e'.Password := by
      have hpp' : root.Groups.flatMap Group.Entries = pre ++ e' :: post := hpp
      rw [flattenGroups_eq_foldl, hpp', ← het]
      exact lookup_foldl_insert_last pre post e' ∅ (by rw [het]; exact hpost)
    refine ⟨mem_keys_of_lookup hl, e', ?_, het, hl⟩
    rw [hpp]
    exact List.mem_append_right _ (List.mem_cons_self _ _)
  · intro k hk
    obtain ⟨v, hv⟩ := exists_lookup_of_mem_keys hk
    have hv' := hv
    rw [flattenGroups_eq_foldl] at hv'
    rcases lookup_foldl_insert_source k v _ _ hv' with hempty | ⟨e, he, het, hep⟩
    · exact absurd hempty (by simp)
    · obtain ⟨g, hg, heg⟩ := List.mem_flatMap.1 he
      exact ⟨g, hg, e, heg, het, by rw [hv, hep]⟩

/-- Witness of the amended C4 on the database with two top-level groups that
each hold an entry titled "dup", and on the database whose only entry sits in a
sub-group: the first map has the key "dup", the second has no key at all. -/
theorem readKdbxConfig_top_level_entries_witness :
    (∃ m, readKdbxConfig none none rootDup = Except.ok m ∧ ascii "dup" ∈ m.keys) ∧
      (∃ m, readKdbxConfig none none rootNested = Except.ok m ∧
        ∀ k, k ∈ m.keys →
          ∃ g, g ∈ rootNested.Groups ∧ ∃ e, e ∈ g.Entries ∧ e.Title = k ∧
            m.lookup k = some e.Password) := by
  constructor
  · obtain ⟨m, hm, h, _⟩ := readKdbxConfig_top_level_entries rootDup
    exact ⟨m, hm,
      (h (Group.mk [⟨ascii "dup", ascii "first"⟩] []) (List.mem_cons_self _ _)
        ⟨ascii "dup", ascii "first"⟩ (List.mem_cons_self _ _)).1⟩
  · obtain ⟨m, hm, _, h⟩ := readKdbxConfig_top_level_entries rootNested
    exact ⟨m, hm, h⟩

/-- C8: when both files can be read and `e` is the last of the visited entries
(groups in list order, entries in list order within each group) that carries
its title, the map `readKdbxConfig` returns holds exactly one value for that
title, the password of `e`, however many earlier entries carry the title. -/
theorem readKdbxConfig_last_write_wins (root : RootData) (pre post : List Entry) (e : Entry)
    (hv : visitedEntries root = pre ++ e :: post)
    (hlast : ∀ x, x ∈ post → x.Title ≠ e.Title) :
    ∃ m, readKdbxConfig none none root = Except.ok m ∧
      m.lookup e.Title = some e.Password ∧
      m.keys.countP (fun k => decide (k = e.Title)) = 1 := by
  have hl : (flattenGroups root.Groups ∅).lookup e.Title = some e.Password := by
    have hv' : root.Groups.flatMap Group.Entries = pre ++ e :: post := hv
    rw [flattenGroups_eq_foldl, hv']
    exact lookup_foldl_insert_last pre post e ∅ hlast
  exact ⟨flattenGroups root.Groups ∅, rfl, hl, countP_keys_eq_one hl⟩

/-- Witness of C8: two groups each holding an entry titled "dup" give the
password of the second group's entry. -/
theorem readKdbxConfig_last_write_wins_witness :
    ∃ m, readKdbxConfig none none rootDup = Except.ok m ∧
      m.lookup (ascii "dup") = some (ascii "second") ∧
      m.keys.countP (fun k => decide (k = ascii "dup")) = 1 :=
  readKdbxConfig_last_write_wins rootDup [⟨ascii "dup", ascii "first"⟩] []
    ⟨ascii "dup", ascii "second"⟩ (by decide) (by decide)


/-! ## Lemmas on `copy`, `truncateAndMask` and `findDevConfigPath` -/

theorem foldl_filter_snoc {α : Type} (p : α → Bool) (l : List α) :
    ∀ acc : List α,
      l.foldl (fun acc e => if p e = true then acc ++ [e] else acc) acc = acc ++ l.filter p := by
  induction l with
  | nil => intro acc; simp
  | cons a l ih =>
    intro acc
    by_cases h : p a = true
    · simp [ih, h]
    · simp [ih, h]

theorem copyMatches_eq_filter (cfg : BadConfig) (key : GoString) :
    copyMatches cfg key = cfg.yielded.filter (fun e => stringsContains e.Key key) := by
  unfold copyMatches BadConfig.Values
  rw [rangeKeys_of_always_continue cfg _ (fun _ _ => rfl), ← yielded_eq_filterMap]
  simpa using foldl_filter_snoc (fun e => stringsContains e.Key key) cfg.yielded []

/-- What `copy` does as written: it ends with "no value found" exactly when no
yielded key contains the requested key, and then the clipboard is untouched. -/
theorem copy_noValueFound_iff (cfg : BadConfig) (clipboardInit : Bool) (key : GoString) :
    (copy cfg clipboardInit key = CopyOutcome.noValueFound ↔
        ∀ e, e ∈ cfg.yielded → ¬ key <:+: e.Key) ∧
      (copy cfg clipboardInit key = CopyOutcome.noValueFound →
        (copy cfg clipboardInit key).clipboard = none) := by
  have hm : copyMatches cfg key = [] ↔ ∀ e, e ∈ cfg.yielded → ¬ key <:+: e.Key := by
    rw [copyMatches_eq_filter, List.filter_eq_nil_iff]
    constructor
    · intro h e he
      simpa [stringsContains] using h e he
    · intro h e he
      simpa [stringsContains] using h e he
  refine ⟨?_, fun hc => by rw [hc]; rfl⟩
  rw [← hm]
  constructor
  · intro hc
    by_contra hne
    have hlen : ¬ (copyMatches cfg key).length = 0 := fun h0 => hne (List.length_eq_zero.1 h0)
    unfold copy at hc
    simp only [hlen, dite_false] at hc
    split at hc
    · cases hc
    · split at hc <;> cases hc
  · intro h
    simp [copy, h]

/-! ## Claims on `copy`, `truncateAndMask` and `findDevConfigPath` -/

/-- C5 fails on a secret of 51 bytes, 49 times "a" then "bc": the rendering is
"aa", 46 asterisks, "ab", so it ends with bytes 49 and 50 of the secret and not
with its last two bytes "bc". -/
theorem truncateAndMask_long_secret :
    truncateAndMask longSecret 50 = some (ascii "aa" ++ List.replicate 46 42 ++ ascii "ab") ∧
      longSecret.drop (longSecret.length - 2) = ascii "bc" ∧
      ¬ ∃ n, truncateAndMask longSecret 50 =
        some (longSecret.take 2 ++ List.replicate n 42 ++
          longSecret.drop (longSecret.length - 2)) := by
  refine ⟨by decide, by decide, ?_⟩
  rintro ⟨n, hn⟩
  have h1 : truncateAndMask longSecret 50 =
      some (ascii "aa" ++ List.replicate 46 42 ++ ascii "ab") := by decide
  rw [h1] at hn
  have h2 := congrArg (fun o => o.map List.getLast?) hn
  have h3 : longSecret.drop (longSecret.length - 2) = [98, 99] := by decide
  have h4 : ascii "ab" = [97, 98] := by decide
  rw [h3, h4] at h2
  simp at h2

/-- C5, amended: for every secret `s` of at least 4 bytes, with `t` the first
50 bytes of `s` (all of `s` when it has at most 50), `truncateAndMask s 50`
returns the first two bytes of `s`, then `len t - 4` asterisks, then the last
two bytes of `t`; its length is `min (len s) 50`, at most 50; the last two bytes
of `t` are the last two bytes of `s` when `s` has at most 50 bytes; and this is
the rendering `truncate s 50 true` that `list` and `copy` use for a masked
value. -/
theorem truncateAndMask_shape (s : GoString) (h : 4 ≤ s.length) :
    truncateAndMask s 50 =
        some (s.take 2 ++ List.replicate ((s.take 50).length - 4) 42 ++
          (s.take 50).drop ((s.take 50).length - 2)) ∧
      (s.take 2 ++ List.replicate ((s.take 50).length - 4) 42 ++
          (s.take 50).drop ((s.take 50).length - 2)).length = min s.length 50 ∧
      ((s.take 50).drop ((s.take 50).length - 2)).length = 2 ∧
      (s.length ≤ 50 → (s.take 50).drop ((s.take 50).length - 2) = s.drop (s.length - 2)) ∧
      truncate s 50 true = truncateAndMask s 50 := by
  refine ⟨?_, ?_, ?_, ?_, ?_⟩
  · by_cases hlen : s.length ≤ 50
    · have ht : s.take 50 = s := List.take_of_length_le hlen
      have h1 : ¬ ((s.length : Int) > 50) := by omega
      have h2 : ¬ (s.length < 4) := by omega
      have h3 : ((s.length : Int) - 4).toNat = s.length - 4 := by omega
      have h4 : ((s.length : Int) - 2).toNat = s.length - 2 := by omega
      have h5 : ¬ ((s.length : Int) - 4 < 0) := by omega
      have h6 : (0 : Int) ≤ (s.length : Int) - 2 ∧ (s.length : Int) - 2 ≤ (s.length : Int) := by
        omega
      have h7 : (0 : Int) ≤ 2 ∧ (2 : Int) ≤ (s.length : Int) := by omega
      have h8 : 2 ≤ s.length := by omega
      simp [truncateAndMask, sliceTo, sliceFrom, repeatStar, ht, h1, h2, h3, h4, h5, h6, h7, h8]
    · have hl : (s.take 50).length = 50 := by rw [List.length_take]; omega
      have ht : (s.take 50).take 2 = s.take 2 := by rw [List.take_take]; rfl
      have h1 : (s.length : Int) > 50 := by omega
      have h2 : ¬ (s.length < 4) := by omega
      have h0 : (0 : Int) ≤ 50 ∧ (50 : Int) ≤ (s.length : Int) := by omega
      simp [truncateAndMask, sliceTo, sliceFrom, repeatStar, h1, h2, h0, hl, ht]
  · simp only [List.length_append, List.length_take, List.length_replicate, List.length_drop]
    omega
  · simp only [List.length_take, List.length_drop]
    omega
  · intro hlen
    rw [List.take_of_length_le hlen]
  · simp [truncate]

/-- Witness of the amended C5 on the secret "s3cr3t", rendered "s3**3t". -/
theorem truncateAndMask_shape_witness :
    4 ≤ (ascii "s3cr3t").length ∧ truncateAndMask (ascii "s3cr3t") 50 = some (ascii "s3**3t") :=
  ⟨by decide, (truncateAndMask_shape (ascii "s3cr3t") (by decide)).1.trans (by decide)⟩

/-- C6: on TomlConfig = {"a.b": "x"} and the requested key "a" no yielded
entry has the key "a", so an exact match finds nothing; yet `copy` does not end
with "no value found": it writes "x", the value of "a.b", to the clipboard,
because its loop keeps every entry whose key contains the requested key. -/
theorem copy_substring_match :
    (∀ e, e ∈ cfgSingle.yielded → e.Key ≠ ascii "a") ∧
      copy cfgSingle true (ascii "a") =
        CopyOutcome.copied ⟨ascii "a.b", ascii "x", ConfigFileEntryType.TomlConfig⟩ ∧
      (copy cfgSingle true (ascii "a")).clipboard = some (ascii "x") := by
  decide

/-- C7: `findDevConfigPath` returns the first of ./dev-config.toml,
./config/dev-config.toml and <home>/IdeaProjects/JetProfile/config/dev-config.toml
that exists; it fails exactly when none of the three exists, and then with the
error "dev-config.toml not found", which names the file. -/
theorem findDevConfigPath_first_existing (homedir : GoString) (stat : GoString → Bool) :
    (stat (ascii "./dev-config.toml") = true →
        findDevConfigPath homedir stat = Except.ok (ascii "./dev-config.toml")) ∧
      (stat (ascii "./dev-config.toml") = false →
        stat (ascii "./config/dev-config.toml") = true →
        findDevConfigPath homedir stat = Except.ok (ascii "./config/dev-config.toml")) ∧
      (stat (ascii "./dev-config.toml") = false →
        stat (ascii "./config/dev-config.toml") = false →
        stat (homedir ++ ascii "/IdeaProjects/JetProfile/config/dev-config.toml") = true →
        findDevConfigPath homedir stat =
          Except.ok (homedir ++ ascii "/IdeaProjects/JetProfile/config/dev-config.toml")) ∧
      ((∃ err, findDevConfigPath homedir stat = Except.error err) ↔
        stat (ascii "./dev-config.toml") = false ∧
          stat (ascii "./config/dev-config.toml") = false ∧
          stat (homedir ++ ascii "/IdeaProjects/JetProfile/config/dev-config.toml") = false) ∧
      (∀ err, findDevConfigPath homedir stat = Except.error err →
        err = ascii "dev-config.toml not found" ∧ tomlConfigFileName <:+: err) := by
  have e1 : ascii "./" ++ tomlConfigFileName = ascii "./dev-config.toml" := by decide
  have e2 : ascii "./config/" ++ tomlConfigFileName = ascii "./config/dev-config.toml" := by
    decide
  have e3 : homedir ++ ascii "/IdeaProjects/JetProfile/config/" ++ tomlConfigFileName =
      homedir ++ ascii "/IdeaProjects/JetProfile/config/dev-config.toml" := by
    rw [List.append_assoc]
    congr 1
  have e4 : tomlConfigFileName ++ ascii " not found" = ascii "dev-config.toml not found" := by
    decide
  have e5 : tomlConfigFileName <:+: ascii "dev-config.toml not found" := by decide
  unfold findDevConfigPath pathsForSearch
  rw [e1, e2, e3, e4]
  generalize ascii "./dev-config.toml" = p1
  generalize ascii "./config/dev-config.toml" = p2
  generalize homedir ++ ascii "/IdeaProjects/JetProfile/config/dev-config.toml" = p3
  cases h1 : stat p1 <;> cases h2 : stat p2 <;> cases h3 : stat p3 <;>
    simp [firstLocation, h1, h2, h3, e5]

/-- Witness of C7: when only ./config/dev-config.toml exists, that path is
returned. -/
theorem findDevConfigPath_first_existing_witness :
    findDevConfigPath (ascii "/home/u") statOnlyConfigDir =
      Except.ok (ascii "./config/dev-config.toml") :=
  (findDevConfigPath_first_existing (ascii "/home/u") statOnlyConfigDir).2.1
    (by decide) (by decide)

end Badcfg
